import Mathlib

/-!
Verification of the faculty-directory extraction core
(`src/main.js` and the helper module `src/unnamed/part_000`, the file
imported as `./helpers.js`).

The JavaScript string functions are embedded as executable Lean functions
over `String` / `List Char`.  Confidence scores are exact rationals
(the source only ever returns the decimal literals 0.1, 0.3, 0.5, 0.6,
0.75, 0.85, 0.95, and compares against the literal 0.5, so `ℚ` models the
JavaScript doubles faithfully on every reachable value).
-/

namespace FacultyScraper

/-! ## Character and string primitives modelling JavaScript semantics -/

/-- The whitespace class of JavaScript regular expressions (`\s`),
`String.prototype.trim`, and friends: space, tab, LF, VT, FF, CR, NBSP,
Ogham space, the U+2000–U+200A range, line/paragraph separator, narrow
no-break space, medium mathematical space, ideographic space and BOM. -/
def isJsWs (c : Char) : Bool :=
  c == ' ' || c == '\t' || c == '\n' || c.toNat = 0xB || c.toNat = 0xC || c == '\r' ||
  c.toNat = 0xA0 || c.toNat = 0x1680 ||
  (0x2000 ≤ c.toNat && c.toNat ≤ 0x200A) ||
  c.toNat = 0x2028 || c.toNat = 0x2029 || c.toNat = 0x202F || c.toNat = 0x205F ||
  c.toNat = 0x3000 || c.toNat = 0xFEFF

/-- Case-sensitive "the first list is an initial segment of the second". -/
def litStarts : List Char → List Char → Bool
  | [], _ => true
  | _ :: _, [] => false
  | p :: ps, c :: cs => p == c && litStarts ps cs

/-- Case-insensitive initial-segment test (ASCII folding, as in a `/i`
regular-expression flag applied to the ASCII patterns of the source). -/
def ciStarts : List Char → List Char → Bool
  | [], _ => true
  | _ :: _, [] => false
  | p :: ps, c :: cs => p.toLower == c.toLower && ciStarts ps cs

/-- `hay.includes(needle)` on character lists (case-sensitive). -/
def containsSub (needle : List Char) : List Char → Bool
  | [] => needle.isEmpty
  | c :: t => litStarts needle (c :: t) || containsSub needle t

/-- JavaScript `hay.includes(needle)`. -/
def strContains (hay needle : String) : Bool :=
  containsSub needle.data hay.data

/-- JavaScript `s.toLowerCase()` (character-wise ASCII folding; the source
only ever folds ASCII names, emails and URLs). -/
def jsToLowerS (s : String) : String :=
  ⟨s.data.map Char.toLower⟩

/-- JavaScript `s.split(sep)` generalised to a character predicate:
splits at every separator character, keeping empty pieces, and returns
`[[]]` on the empty string.  With `(· == ' ')` this is exactly
`s.split(' ')`. -/
def jsSplitOn (p : Char → Bool) : List Char → List (List Char)
  | [] => [[]]
  | c :: t =>
    if p c then [] :: jsSplitOn p t
    else
      match jsSplitOn p t with
      | h :: r => (c :: h) :: r
      | [] => [[c]]

/-- String-level wrapper of `jsSplitOn`. -/
def jsSplitS (p : Char → Bool) (s : String) : List String :=
  (jsSplitOn p s.data).map (fun l => ⟨l⟩)

/-- JavaScript `s.trim()`: drop `\s` characters from both ends. -/
def jsTrimL (l : List Char) : List Char :=
  ((l.dropWhile isJsWs).reverse.dropWhile isJsWs).reverse

/-- JavaScript `s.replace(/\s+/g, ' ')`: every maximal whitespace run
becomes a single space. -/
def squeezeWs : List Char → List Char
  | [] => []
  | [c] => [if isJsWs c then ' ' else c]
  | c :: c2 :: t =>
    if isJsWs c && isJsWs c2 then squeezeWs (c2 :: t)
    else (if isJsWs c then ' ' else c) :: squeezeWs (c2 :: t)

/-- JavaScript `s[0]` used inside a template literal: the one-character
string for a non-empty `s`, and the string `"undefined"` for `s = ""`
(the source only reaches it on tokens of length `> 1`). -/
def jsIndex0 (s : String) : String :=
  match s.data with
  | [] => "undefined"
  | c :: _ => ⟨[c]⟩

/-! ## `calculateEmailConfidence` (src/unnamed/part_000 lines 3–32) -/

/-- The source's literal `0.1`, as the reduced fraction `1/10` (an
explicit `Rat` structure literal, so that proofs can evaluate it; the
reading `score010 = 0.1` is proved in `scoreVals`). -/
def score010 : ℚ := ⟨1, 10, by norm_num, by norm_num⟩

/-- The source's literal `0.3` (`3/10`). -/
def score030 : ℚ := ⟨3, 10, by norm_num, by norm_num⟩

/-- The source's literal `0.5` (`1/2`). -/
def score050 : ℚ := ⟨1, 2, by norm_num, by norm_num⟩

/-- The source's literal `0.6` (`3/5`). -/
def score060 : ℚ := ⟨3, 5, by norm_num, by norm_num⟩

/-- The source's literal `0.75` (`3/4`). -/
def score075 : ℚ := ⟨3, 4, by norm_num, by norm_num⟩

/-- The source's literal `0.85` (`17/20`). -/
def score085 : ℚ := ⟨17, 20, by norm_num, by norm_num⟩

/-- The source's literal `0.95` (`19/20`). -/
def score095 : ℚ := ⟨19, 20, by norm_num, by norm_num⟩

/-- `name.toLowerCase().split(' ').filter(part => part.length > 1)`
(src/unnamed/part_000 line 6). -/
def nameTokens (name : String) : List String :=
  (jsSplitS (fun c => c == ' ') (jsToLowerS name)).filter (fun part => decide (1 < part.length))

/-- `calculateEmailConfidence(name, email)` from src/unnamed/part_000
lines 3–32, with the seven ordered pattern checks of the source. -/
def calculateEmailConfidence (name email : String) : ℚ :=
  if name = "" ∨ email = "" ∨ email.length < 5 then score010
  else
    let nameParts := nameTokens name
    if nameParts.length < 2 then score030
    else
      let firstName := nameParts.headD ""
      let lastName := nameParts.getLastD ""
      let emailLocal := jsToLowerS ((jsSplitS (fun c => c == '@') email).headD "")
      if emailLocal = firstName ++ "." ++ lastName then score095
      else if emailLocal = firstName ++ "." ++ jsIndex0 lastName then score085
      else if emailLocal = jsIndex0 firstName ++ "." ++ lastName then score085
      else if strContains emailLocal firstName && strContains emailLocal lastName then score075
      else if strContains emailLocal firstName then score060
      else if strContains emailLocal lastName then score050
      else score010

/-! ## `findProfileLink` (src/unnamed/part_000 lines 34–58) -/

/-- One page hyperlink harvested by `extractAllProfileLinks`
(src/main.js lines 52–61). -/
structure ProfileLinkEntry where
  href : String
  text : String
  title : String
deriving DecidableEq

/-- `findProfileLink(name, profileLinks)` from src/unnamed/part_000
lines 34–58: first-match text containment (either direction,
case-insensitive), then first-match URL token containment, else `""`. -/
def findProfileLink (name : String) (profileLinks : List ProfileLinkEntry) : String :=
  if name = "" ∨ profileLinks = [] then ""
  else
    let nameParts := jsSplitS (fun c => c == ' ') (jsToLowerS name)
    let firstName := nameParts.headD ""
    let lastName := nameParts.getLastD ""
    match profileLinks.find? (fun link =>
        strContains (jsToLowerS link.text) (jsToLowerS name) ||
        strContains (jsToLowerS name) (jsToLowerS link.text)) with
    | some exactMatch => exactMatch.href
    | none =>
      match profileLinks.find? (fun link =>
          (strContains (jsToLowerS link.href) firstName &&
           strContains (jsToLowerS link.href) lastName) ||
          strContains (jsToLowerS link.href) (firstName ++ "-" ++ lastName) ||
          strContains (jsToLowerS link.href) (lastName ++ "-" ++ firstName)) with
      | some urlMatch => urlMatch.href
      | none => ""

/-! ## `getUniversityName` (src/unnamed/part_000 lines 60–78) -/

/-- Split a character list at the first occurrence of `"://"`, returning
the scheme part and the remainder. -/
def schemeSplit : List Char → Option (List Char × List Char)
  | [] => none
  | c :: t =>
    if litStarts [':', '/', '/'] (c :: t) then some ([], (c :: t).drop 3)
    else
      match schemeSplit t with
      | some (sch, rest) => some (c :: sch, rest)
      | none => none

/-- Valid first character of a URL scheme. -/
def isSchemeStart (c : Char) : Bool := c.isAlpha

/-- Valid non-initial character of a URL scheme. -/
def isSchemeChar (c : Char) : Bool :=
  c.isAlpha || c.isDigit || c == '+' || c == '-' || c == '.'

/-- The part of an authority after the last `'@'` (drops userinfo). -/
def afterLastAt (l : List Char) : List Char :=
  (l.reverse.takeWhile (fun c => c != '@')).reverse

/-- Modelled from the source's `new URL(url).hostname` (a platform
builtin): for an absolute URL `scheme://[userinfo@]host[:port][/?#…]` it
returns the lower-cased host; it returns `none` exactly where the builtin
throws on the URL shapes this program can meet (no `://` separator, an
invalid scheme, or an empty host — in particular `new URL("")` throws). -/
def parseHostname (url : String) : Option String :=
  match schemeSplit url.data with
  | none => none
  | some (sch, rest) =>
    match sch with
    | [] => none
    | c :: cs =>
      if isSchemeStart c && cs.all isSchemeChar then
        let auth := rest.takeWhile (fun ch => !(ch == '/' || ch == '?' || ch == '#'))
        let host := (afterLastAt auth).takeWhile (fun ch => ch != ':')
        if host.isEmpty then none else some ⟨host.map Char.toLower⟩
      else none

/-- The literal `"University"` searched by the title pattern. -/
def univLit : List Char := "University".data

/-- Line-terminator characters that `.` does not match in a JavaScript
regular expression. -/
def isRegexNl (c : Char) : Bool :=
  c == '\n' || c == '\r' || c.toNat = 0x2028 || c.toNat = 0x2029

/-- Number of characters the lazy `.*?` consumes before `"University"`
can match from the current position, or `none` if a line terminator or
the end of input intervenes. -/
def lazyDot : List Char → Option Nat
  | [] => none
  | c :: t =>
    if litStarts univLit (c :: t) then some 0
    else if isRegexNl c then none
    else (lazyDot t).map (· + 1)

/-- The capture of `pageTitle.match(/(.*?University[^|]*)/)` (first match
wins; the engine advances the start position until `.*?University`
succeeds, then extends greedily with `[^|]*`). -/
def univMatch : List Char → Option (List Char)
  | [] => none
  | c :: t =>
    match lazyDot (c :: t) with
    | some k =>
      some ((c :: t).take (k + univLit.length) ++
            ((c :: t).drop (k + univLit.length)).takeWhile (fun ch => ch != '|'))
    | none => univMatch t

/-- `domain.replace(/^www\./, '')`: strip one leading `"www."`. -/
def stripWww (l : List Char) : List Char :=
  if litStarts "www.".data l then l.drop 4 else l

/-- JavaScript `s.replace(needle, '')` with a plain-string needle:
remove the first occurrence only. -/
def replaceFirst (needle : List Char) : List Char → List Char
  | [] => []
  | c :: t =>
    if litStarts needle (c :: t) then (c :: t).drop needle.length
    else c :: replaceFirst needle t

/-- `getUniversityName(url, pageTitle)` from src/unnamed/part_000
lines 60–78.  `none` models the `TypeError` thrown by `new URL(url)` on
an invalid URL; every other path returns a string. -/
def getUniversityName (url : String) (pageTitle : String := "") : Option String :=
  (parseHostname url).map (fun hostname =>
    let domain := jsToLowerS hostname
    if strContains domain "kansas" then "University of Kansas"
    else if strContains domain "illinois" then "University of Illinois"
    else if strContains domain "utah" then "University of Utah"
    else if strContains domain "unf" then "University of North Florida"
    else
      match (if strContains pageTitle "University" then univMatch pageTitle.data else none) with
      | some m => (⟨jsTrimL m⟩ : String)
      | none => (⟨replaceFirst ".edu".data (stripWww domain.data)⟩ : String))

/-! ## `getDepartmentName` (src/unnamed/part_000 lines 80–97) -/

/-- The fixed keyword list of `getDepartmentName`. -/
def musicKeywords : List String :=
  ["School of Music", "College of Music", "Department of Music",
   "Music Department", "School of Fine Arts", "College of Fine Arts"]

/-- `getDepartmentName(pageContent)` from src/unnamed/part_000
lines 80–97: first keyword found as a substring, else the generic label. -/
def getDepartmentName (pageContent : String := "") : String :=
  match musicKeywords.find? (fun keyword => strContains pageContent keyword) with
  | some keyword => keyword
  | none => "Music Department"

/-! ## `cleanName` (src/unnamed/part_000 lines 99–107) -/

/-- The alternatives of `/Dr\.|Prof\.|Professor|Mr\.|Ms\.|Mrs\./gi`, in
the source's order (alternation is tried left to right). -/
def honorificsStrings : List String :=
  ["Dr.", "Prof.", "Professor", "Mr.", "Ms.", "Mrs."]

/-- First honorific alternative matching at the head of `l`
(case-insensitive), as the regex engine tries them. -/
def findHon (l : List Char) : Option (List Char) :=
  (honorificsStrings.map String.data).find? (fun pat => ciStarts pat l)

/-- One global-regex pass deleting every (left-to-right, non-rescanning)
match of the honorific alternation.  `fuel` bounds the recursion; each
step consumes at least one character, so `l.length` fuel is enough. -/
def stripHonAux : Nat → List Char → List Char
  | 0, l => l
  | _ + 1, [] => []
  | fuel + 1, c :: t =>
    match findHon (c :: t) with
    | some pat => stripHonAux fuel ((c :: t).drop pat.length)
    | none => c :: stripHonAux fuel t

/-- `s.replace(/Dr\.|Prof\.|Professor|Mr\.|Ms\.|Mrs\./gi, '')`. -/
def stripHonRun (l : List Char) : List Char :=
  stripHonAux l.length l

/-- The alternatives of the suffix group `(Jr|Sr|III|II)`, in source
order. -/
def suffixStrings : List String :=
  ["Jr", "Sr", "III", "II"]

/-- One global-regex pass of `s.replace(/,\s*(Jr|Sr|III|II)\.?/gi, '')`:
at each comma, greedily skip whitespace, try the group alternatives
case-insensitively, and consume an optional trailing period. -/
def stripSufAux : Nat → List Char → List Char
  | 0, l => l
  | _ + 1, [] => []
  | fuel + 1, c :: t =>
    if c == ',' then
      match (suffixStrings.map String.data).find? (fun pat => ciStarts pat (t.dropWhile isJsWs)) with
      | some pat =>
        stripSufAux fuel
          (match (t.dropWhile isJsWs).drop pat.length with
            | '.' :: r => r
            | other => other)
      | none => c :: stripSufAux fuel t
    else c :: stripSufAux fuel t

/-- `s.replace(/,\s*(Jr|Sr|III|II)\.?/gi, '')`. -/
def stripSufRun (l : List Char) : List Char :=
  stripSufAux l.length l

/-- `cleanName(name)` from src/unnamed/part_000 lines 99–107. -/
def cleanName (name : String) : String :=
  if name = "" then ""
  else ⟨jsTrimL (squeezeWs (stripSufRun (stripHonRun name.data)))⟩

/-! ## The remaining field cleaners (src/unnamed/part_000 lines 109–132) -/

/-- The character class `[-â€¢]` of `cleanTitle`'s bullet regex (the
source file literally contains the three mojibake characters). -/
def isBulletChar (c : Char) : Bool :=
  c == '-' || c == 'â' || c == '€' || c == '¢'

/-- `title.replace(/^\s*[-â€¢]\s*/, '')`: strip one leading
whitespace-bullet-whitespace marker if present, else leave the string
unchanged. -/
def stripBullet (l : List Char) : List Char :=
  match l.dropWhile isJsWs with
  | c :: t => if isBulletChar c then t.dropWhile isJsWs else l
  | [] => l

/-- `cleanTitle(title)` from src/unnamed/part_000 lines 109–116. -/
def cleanTitle (title : String) : String :=
  if title = "" then ""
  else ⟨jsTrimL (squeezeWs (stripBullet title.data))⟩

/-- `cleanEmail(email)` from src/unnamed/part_000 lines 118–122. -/
def cleanEmail (email : String) : String :=
  if email = "" ∨ ¬ strContains email "@" then ""
  else ⟨jsTrimL (jsToLowerS email).data⟩

/-- The labels of `cleanPhone`'s `/^(Phone|Tel|Office):\s*/i`. -/
def phoneLabels : List String :=
  ["Phone", "Tel", "Office"]

/-- Strip one leading `(Phone|Tel|Office):\s*` label, case-insensitively. -/
def phoneLabelDrop (l : List Char) : List Char :=
  match phoneLabels.find? (fun lab => ciStarts (lab.data ++ [':']) l) with
  | some lab => (l.drop (lab.length + 1)).dropWhile isJsWs
  | none => l

/-- The retained character class of `/[^\d\-\(\)\.\s\+]/g`. -/
def isPhoneKeep (c : Char) : Bool :=
  c.isDigit || c == '-' || c == '(' || c == ')' || c == '.' || isJsWs c || c == '+'

/-- `cleanPhone(phone)` from src/unnamed/part_000 lines 124–132. -/
def cleanPhone (phone : String) : String :=
  if phone = "" then ""
  else ⟨jsTrimL ((phoneLabelDrop phone.data).filter isPhoneKeep)⟩

/-! ## Record processing (src/main.js lines 249–284) -/

/-- A raw candidate row produced by a dialect extractor. -/
structure RawCandidate where
  name : String
  title : String
  email : String
  phone : String
  profileLink : String
deriving DecidableEq

/-- The per-page context held by `PlaywrightFacultyExtractor`:
university and department labels, the page's profile-link inventory, the
page URL and the `scrapedAt` timestamp (both supplied by the external
page/clock collaborators). -/
structure PageContext where
  universityName : String
  departmentName : String
  profileLinks : List ProfileLinkEntry
  sourceUrl : String
  scrapedAt : String
deriving DecidableEq

/-- The final output record assembled by `processFacultyData`. -/
structure FacultyRecord where
  name : String
  titles : List String
  profileLink : String
  email : String
  emailConfidence : ℚ
  emailSource : String
  phone : String
  university : String
  department : String
  extractionMethod : String
  sourceUrl : String
  scrapedAt : String
deriving DecidableEq

/-- `processFacultyData(rawFaculty, method)` from src/main.js
lines 249–284: clean fields, resolve a missing profile link, score the
email, assemble the record, and drop records whose cleaned name is empty
or not longer than 2 characters. -/
def processFacultyData (rawFaculty : List RawCandidate) (method : String)
    (ctx : PageContext) : List FacultyRecord :=
  (rawFaculty.map (fun person =>
    let cleanedName := cleanName person.name
    let cleanedEmail := cleanEmail person.email
    let profileLink :=
      if person.profileLink = "" ∧ cleanedName ≠ "" then
        findProfileLink cleanedName ctx.profileLinks
      else person.profileLink
    let emailConfidence := calculateEmailConfidence cleanedName cleanedEmail
    { name := cleanedName
      titles := if person.title = "" then [] else [cleanTitle person.title]
      profileLink := profileLink
      email := cleanedEmail
      emailConfidence := emailConfidence
      emailSource := if score050 < emailConfidence then "name-matched" else "generic"
      phone := cleanPhone person.phone
      university := ctx.universityName
      department := ctx.departmentName
      extractionMethod := method
      sourceUrl := ctx.sourceUrl
      scrapedAt := ctx.scrapedAt })).filter
    (fun person => person.name != "" && decide (2 < person.name.length))

/-! ## Dialect detection and override (src/main.js lines 219–246 and 350–367) -/

/-- The closed set of extraction dialects. -/
inductive ExtractionMethod where
  | kansas
  | illinois
  | utah
  | tabular
deriving DecidableEq

/-- A loaded page, seen through the only capability detection uses:
whether `page.$(sel)` finds an element for a primitive (comma-free)
selector. -/
structure PageDom where
  hasSel : String → Bool

/-- Presence of a comma-separated selector union: a union matches iff
some component matches. -/
def selUnionPresent (p : PageDom) (sels : List String) : Bool :=
  sels.any p.hasSel

/-- The Kansas fingerprint selector (src/main.js line 223). -/
def kansasSelectors : List String :=
  [".views-row"]

/-- The Illinois fingerprint selector components (src/main.js line 230). -/
def illinoisSelectors : List String :=
  ["div[class*=\"person\"]", ".person-card", ".faculty-card"]

/-- The Utah fingerprint selector components (src/main.js line 237). -/
def utahSelectors : List String :=
  ["a[href*=\".php\"]", "table tr"]

/-- `detectAndExtract`'s dialect decision (src/main.js lines 219–246):
Kansas, else Illinois, else Utah, else Tabular. -/
def detectMethod (p : PageDom) : ExtractionMethod :=
  if selUnionPresent p kansasSelectors then ExtractionMethod.kansas
  else if selUnionPresent p illinoisSelectors then ExtractionMethod.illinois
  else if selUnionPresent p utahSelectors then ExtractionMethod.utah
  else ExtractionMethod.tabular

/-- The OWN keys of the object literal `methodMap`
(src/main.js lines 355–360). -/
def methodOfString (s : String) : Option ExtractionMethod :=
  if s = "kansas" then some ExtractionMethod.kansas
  else if s = "illinois" then some ExtractionMethod.illinois
  else if s = "utah" then some ExtractionMethod.utah
  else if s = "tabular" then some ExtractionMethod.tabular
  else none

/-- The property names a plain object literal inherits from
`Object.prototype`.  `methodMap` is a plain object literal, so the
bracket read `methodMap[extractionMethod]` at src/main.js line 362 walks
the prototype chain: for each of these names the read yields a truthy
value (eleven built-in functions, plus the `__proto__` accessor yielding
the `Object.prototype` object itself), never `undefined`. -/
def objectProtoProps : List String :=
  ["constructor", "hasOwnProperty", "isPrototypeOf", "propertyIsEnumerable",
   "toLocaleString", "toString", "valueOf", "__proto__", "__defineGetter__",
   "__defineSetter__", "__lookupGetter__", "__lookupSetter__"]

/-- What the override dispatch of the request handler ends up running:
either a dialect extractor (forced directly, or chosen by detection), or
— when the override names an inherited `Object.prototype` member — a
call of that inherited member in place of any extraction (for the
non-function `__proto__` value that call throws; in no such case does a
dialect extractor or detection run). -/
inductive DispatchOutcome where
  | dialect (m : ExtractionMethod)
  | protoCall (s : String)
deriving DecidableEq

/-- The request handler's extraction dispatch (src/main.js lines
350–367): `'auto'` runs detection; otherwise `if (methodMap[em])` takes
the truthy branch both for the four own keys (running that dialect) and
for the names of inherited `Object.prototype` members (calling the
inherited member — no extraction, no detection); only a name whose
bracket read is the falsy `undefined` falls back to detection. -/
def selectExtraction (extractionMethod : String) (p : PageDom) : DispatchOutcome :=
  if extractionMethod = "auto" then DispatchOutcome.dialect (detectMethod p)
  else
    match methodOfString extractionMethod with
    | some m => DispatchOutcome.dialect m
    | none =>
      if extractionMethod ∈ objectProtoProps then DispatchOutcome.protoCall extractionMethod
      else DispatchOutcome.dialect (detectMethod p)

/-! ## Definitions written from the specification's words
(used only to compare against the source embeddings above) -/

/-- Modelled from the spec (§4.2): the name split "on whitespace" with
tokens of length ≤ 1 discarded. -/
def wsNameTokens (name : String) : List String :=
  (jsSplitS isJsWs (jsToLowerS name)).filter (fun part => decide (1 < part.length))

/-- `s[0]` as the spec reads it: the first character of a non-empty
token. -/
def strTake1 (s : String) : String :=
  ⟨s.data.take 1⟩

/-- Modelled from the spec (§4.2): the seven ordered pattern checks as a
(condition, score) table. -/
def confidencePatterns (first last emailLocal : String) : List (Bool × ℚ) :=
  [ (emailLocal == first ++ "." ++ last, score095),
    (emailLocal == first ++ "." ++ strTake1 last, score085),
    (emailLocal == strTake1 first ++ "." ++ last, score085),
    (strContains emailLocal first && strContains emailLocal last, score075),
    (strContains emailLocal first, score060),
    (strContains emailLocal last, score050) ]

/-- Modelled from the spec (§4.2): the score of the first matching
pattern, else 0.1. -/
def firstMatchScore (ps : List (Bool × ℚ)) : ℚ :=
  match ps.find? (fun pr => pr.1) with
  | some pr => pr.2
  | none => score010

/-- Modelled from the spec (§4.3): the three ordered resolver steps —
first entry with text containment in either direction, else first entry
whose href contains both tokens or a hyphenated combination, else `""`. -/
def findProfileLinkSpec (name : String) (links : List ProfileLinkEntry) : String :=
  match links.find? (fun link =>
      strContains (jsToLowerS link.text) (jsToLowerS name) ||
      strContains (jsToLowerS name) (jsToLowerS link.text)) with
  | some exactMatch => exactMatch.href
  | none =>
    let toks := jsSplitS isJsWs (jsToLowerS name)
    let firstName := toks.headD ""
    let lastName := toks.getLastD ""
    match links.find? (fun link =>
        (strContains (jsToLowerS link.href) firstName &&
         strContains (jsToLowerS link.href) lastName) ||
        strContains (jsToLowerS link.href) (firstName ++ "-" ++ lastName) ||
        strContains (jsToLowerS link.href) (lastName ++ "-" ++ firstName)) with
    | some urlMatch => urlMatch.href
    | none => ""

/-- Modelled from the spec (§4.4): the fixed domain-fragment lookup. -/
def domainLookup : List (String × String) :=
  [("kansas", "University of Kansas"),
   ("illinois", "University of Illinois"),
   ("utah", "University of Utah"),
   ("unf", "University of North Florida")]

/-- Modelled from the spec (§4.4), with the fallback amended to what the
source does: the hostname lookup, then the `.*?University[^|]*` title
match, then the hostname with a leading `www.` and the FIRST occurrence
of `.edu` removed. -/
def univNameSpec (host title : String) : String :=
  match domainLookup.find? (fun e => strContains (jsToLowerS host) e.1) with
  | some e => e.2
  | none =>
    if strContains title "University" then
      match univMatch title.data with
      | some m => (⟨jsTrimL m⟩ : String)
      | none => (⟨replaceFirst ".edu".data (stripWww (jsToLowerS host).data)⟩ : String)
    else (⟨replaceFirst ".edu".data (stripWww (jsToLowerS host).data)⟩ : String)


/-! ## Shared auxiliary lemmas -/

/-- The decimal readings of the score constants. -/
theorem scoreVals :
    score010 = 0.1 ∧ score030 = 0.3 ∧ score050 = 0.5 ∧ score060 = 0.6 ∧
    score075 = 0.75 ∧ score085 = 0.85 ∧ score095 = 0.95 := by
  refine ⟨?_, ?_, ?_, ?_, ?_, ?_, ?_⟩ <;>
    simp only [score010, score030, score050, score060, score075, score085, score095,
      Rat.mk'_eq_divInt, Rat.divInt_eq_div] <;>
    norm_num

theorem strData_append (a b : String) : (a ++ b).data = a.data ++ b.data := by
  cases a
  cases b
  rfl

theorem strLength_append (a b : String) : (a ++ b).length = a.length + b.length := by
  cases a with
  | mk la =>
    cases b with
    | mk lb => exact List.length_append la lb

theorem strMk_data (s : String) : (⟨s.data⟩ : String) = s := rfl

theorem jsSplitOn_ne_nil (p : Char → Bool) : ∀ l : List Char, jsSplitOn p l ≠ [] := by
  intro l
  induction l with
  | nil => simp [jsSplitOn]
  | cons c t ih =>
    simp only [jsSplitOn]
    by_cases hc : p c
    · simp [hc]
    · simp only [hc, if_false, Bool.false_eq_true]
      cases h : jsSplitOn p t with
      | nil => exact absurd h ih
      | cons x r => simp

theorem jsSplitOn_congr (p q : Char → Bool) :
    ∀ l : List Char, (∀ c ∈ l, p c = q c) → jsSplitOn p l = jsSplitOn q l := by
  intro l
  induction l with
  | nil => intro _; rfl
  | cons c t ih =>
    intro h
    have hc : p c = q c := h c (List.mem_cons_self c t)
    have ht := ih (fun x hx => h x (List.mem_cons_of_mem c hx))
    simp only [jsSplitOn, hc, ht]

theorem jsSplitOn_head_before_sep (p : Char → Bool) (sep : Char) (hsep : p sep = true) :
    ∀ (l m : List Char), (∀ c ∈ l, p c = false) →
      (jsSplitOn p (l ++ sep :: m)).headD [] = l := by
  intro l
  induction l with
  | nil => intro m _; simp [jsSplitOn, hsep]
  | cons c t ih =>
    intro m h
    have hc : p c = false := h c (List.mem_cons_self c t)
    simp only [List.cons_append, jsSplitOn, hc, if_false, Bool.false_eq_true]
    have ht := ih m (fun x hx => h x (List.mem_cons_of_mem c hx))
    cases he : jsSplitOn p (t ++ sep :: m) with
    | nil => exact absurd he (jsSplitOn_ne_nil p _)
    | cons x r =>
      rw [he] at ht
      simp at ht
      simp [ht]

theorem headD_map_mk (L : List (List Char)) (h : L ≠ []) :
    (L.map (fun l => (⟨l⟩ : String))).headD "" = ⟨L.headD []⟩ := by
  cases L with
  | nil => exact absurd rfl h
  | cons a r => rfl

theorem headD_mem_of_ne_nil (l : List String) (h : l ≠ []) : l.headD "" ∈ l := by
  cases l with
  | nil => exact absurd rfl h
  | cons a r => simp

theorem getLastD_or_mem (l : List String) : ∀ d : String, l.getLastD d = d ∨ l.getLastD d ∈ l := by
  induction l with
  | nil => intro d; left; rfl
  | cons a t ih =>
    intro d
    rcases ih a with h | h
    · right
      rw [List.getLastD_cons, h]
      exact List.mem_cons_self a t
    · right
      rw [List.getLastD_cons]
      exact List.mem_cons_of_mem a h

theorem getLastD_mem_of_ne_nil (l : List String) (h : l ≠ []) : l.getLastD "" ∈ l := by
  cases l with
  | nil => exact absurd rfl h
  | cons a t =>
    rw [List.getLastD_cons]
    rcases getLastD_or_mem t a with h2 | h2
    · rw [h2]; exact List.mem_cons_self a t
    · exact List.mem_cons_of_mem a h2

/-- On a string whose whitespace characters are all plain spaces,
splitting at whitespace and splitting at the space character coincide. -/
theorem splitBridge (s : String) (hws : ∀ c ∈ s.data, isJsWs c = true → c = ' ') :
    jsSplitS isJsWs s = jsSplitS (fun c => c == ' ') s := by
  unfold jsSplitS
  congr 1
  apply jsSplitOn_congr
  intro c hc
  by_cases hsp : c = ' '
  · subst hsp; decide
  · have h1 : (c == ' ') = false := by simp [hsp]
    rw [h1]
    cases hw : isJsWs c with
    | false => rfl
    | true => exact absurd (hws c hc hw) hsp

/-! ## C7 -/

/-- C7: `cleanName` strips the six honorifics (case-insensitively) and
the four comma suffix qualifiers (with an optional trailing period),
collapses whitespace runs to one space and trims; the empty string maps
to itself, and `cleanName "Dr. Jane A. Smith, Jr." = "Jane A. Smith"`. -/
theorem c7_cleanName_behaviour :
    cleanName "" = "" ∧
    cleanName "Dr. Jane A. Smith, Jr." = "Jane A. Smith" ∧
    cleanName "prof. Ada Lovelace" = "Ada Lovelace" ∧
    cleanName "Professor Alan Turing" = "Alan Turing" ∧
    cleanName "MR. Bob Hope" = "Bob Hope" ∧
    cleanName "Ms. Carol Reed" = "Carol Reed" ∧
    cleanName "Mrs. Dana Day" = "Dana Day" ∧
    cleanName "Ann Bee, Jr" = "Ann Bee" ∧
    cleanName "Eve Adams, Sr." = "Eve Adams" ∧
    cleanName "Finn Lee, II" = "Finn Lee" ∧
    cleanName "Gil Han, iii." = "Gil Han" ∧
    cleanName "  Jane \t  Smith  " = "Jane Smith" := by
  decide

/-! ## C4 -/

/-- C4 counterexample: for `name = "a\tb c\td"` and
`email = "abcde@x.com"` the guard passes and the whitespace split leaves
no token of length `> 1` (fewer than 2 tokens remain), yet
`calculateEmailConfidence` returns 0.1, not the claimed 0.3 — the source
splits at the space character only, not at general whitespace. -/
theorem c4_counterexample :
    ¬ ("a\tb c\td" = "") ∧ ¬ ("abcde@x.com" = "") ∧ ¬ ("abcde@x.com".length < 5) ∧
    (wsNameTokens "a\tb c\td").length < 2 ∧
    calculateEmailConfidence "a\tb c\td" "abcde@x.com" = score010 ∧
    score010 ≠ score030 ∧ score010 = 0.1 ∧ score030 = 0.3 := by
  refine ⟨by decide, by decide, by decide, by decide, by decide, by decide, ?_, ?_⟩
  · exact scoreVals.1
  · exact scoreVals.2.1

/-- C4 (amended): `calculateEmailConfidence` returns exactly 0.1 whenever
the name is empty, the email is empty, or the email is shorter than 5
characters; otherwise, after splitting the name on the space character
(not general whitespace) and discarding tokens of length ≤ 1, it returns
exactly 0.3 whenever fewer than 2 tokens remain. -/
theorem c4_amended :
    (∀ name email : String, (name = "" ∨ email = "" ∨ email.length < 5) →
        calculateEmailConfidence name email = score010) ∧
    (∀ name email : String, ¬ (name = "" ∨ email = "" ∨ email.length < 5) →
        (nameTokens name).length < 2 →
        calculateEmailConfidence name email = score030) ∧
    score010 = 0.1 ∧ score030 = 0.3 := by
  refine ⟨?_, ?_, scoreVals.1, scoreVals.2.1⟩
  · intro name email h
    simp only [calculateEmailConfidence, if_pos h]
  · intro name email h1 h2
    simp only [calculateEmailConfidence, if_neg h1, if_pos h2]

/-- Witness for C4 (amended), at concrete inputs for both clauses. -/
theorem c4_witness :
    calculateEmailConfidence "" "abc" = score010 ∧
    calculateEmailConfidence "Jon" "abcde" = score030 :=
  ⟨c4_amended.1 "" "abc" (by decide), c4_amended.2.1 "Jon" "abcde" (by decide) (by decide)⟩

/-! ## C1 -/

/-- C1 counterexample: on the claim's exact scenario the pipeline emits
one record with the claimed name, profile link and extraction method,
but its email confidence is `0.5` (local part `"jdoe"` only contains the
last name — it is not `"j.doe"`), hence `emailSource = "generic"`, not
the claimed `0.85` / `"name-matched"`. -/
theorem c1_counterexample :
    processFacultyData [⟨"Dr. John Doe", "Associate Professor", "jdoe@school.edu", "", ""⟩]
        "kansas"
        ⟨"School U", "Music Department", [⟨"/people/john-doe", "John Doe", ""⟩],
         "https://school.example.edu/people", "2026-01-01T00:00:00.000Z"⟩ =
      [⟨"John Doe", ["Associate Professor"], "/people/john-doe", "jdoe@school.edu",
        score050, "generic", "", "School U", "Music Department", "kansas",
        "https://school.example.edu/people", "2026-01-01T00:00:00.000Z"⟩] ∧
    score050 ≠ 0.85 ∧ ("generic" : String) ≠ "name-matched" := by
  refine ⟨by decide, ?_, by decide⟩
  rw [scoreVals.2.2.1]
  norm_num

/-- C1 (amended): the scenario yields exactly one record with name
`"John Doe"`, profile link `"/people/john-doe"`, email confidence `0.5`,
email source `"generic"` and extraction method `"kansas"`. -/
theorem c1_amended :
    (processFacultyData [⟨"Dr. John Doe", "Associate Professor", "jdoe@school.edu", "", ""⟩]
        "kansas"
        ⟨"School U", "Music Department", [⟨"/people/john-doe", "John Doe", ""⟩],
         "https://school.example.edu/people", "2026-01-01T00:00:00.000Z"⟩).map
        (fun r => (r.name, r.profileLink, r.emailConfidence, r.emailSource, r.extractionMethod)) =
      [("John Doe", "/people/john-doe", score050, "generic", "kansas")] ∧
    score050 = 0.5 :=
  ⟨by decide, scoreVals.2.2.1⟩

/-! ## C8 and C9 counterexamples -/

/-- C8 counterexample: `deriveUniversityName` is not total on all string
inputs — on the url `""` the source's `new URL(url)` throws a
`TypeError` (modelled as `none`) instead of returning a value. -/
theorem c8_counterexample : getUniversityName "" "" = none := by decide

/-- C9 counterexample: for hostname `"my.edu.school.org"` (no known
fragment, no `"University"` in the candidate text) the source removes the
FIRST occurrence of `".edu"` from the hostname, yielding
`"my.school.org"`, whereas stripping only a trailing `".edu"` would
leave the hostname unchanged. -/
theorem c9_counterexample :
    getUniversityName "https://my.edu.school.org/music" "" = some "my.school.org" ∧
    ("my.school.org" : String) ≠ "my.edu.school.org" :=
  ⟨by decide, by decide⟩


/-! ## C5 -/

/-- C5 counterexample: the override `"toString"` is not `"auto"` and
not one of the four dialect names, yet the dispatch does not fall back
to detection — the object-literal lookup `methodMap["toString"]` finds
the truthy inherited `Object.prototype.toString` and the program calls
it instead of any dialect extractor. -/
theorem c5_counterexample :
    methodOfString "toString" = none ∧
    ("toString" : String) ≠ "auto" ∧
    selectExtraction "toString" ⟨fun s => s == ".views-row"⟩ =
      DispatchOutcome.protoCall "toString" ∧
    DispatchOutcome.protoCall "toString" ≠
      DispatchOutcome.dialect (detectMethod ⟨fun s => s == ".views-row"⟩) :=
  ⟨by decide, by decide, by decide, by decide⟩

/-- C5 (amended): detection is a total function with the fixed priority
Kansas, Illinois, Utah, Tabular (first fingerprint present wins, Tabular
is the default) and a page with both the Kansas row container and an
Illinois card container selects Kansas; `'auto'` runs detection, a
recognised override forces its dialect, and an unrecognised override
falls back to detection only when it is not an inherited
`Object.prototype` property name — an override naming an inherited
member (e.g. `"toString"`) makes the program invoke that member instead
of any dialect extractor or detection. -/
theorem c5_amended :
    (∀ p : PageDom, selUnionPresent p kansasSelectors = true →
        detectMethod p = ExtractionMethod.kansas) ∧
    (∀ p : PageDom, selUnionPresent p kansasSelectors = false →
        selUnionPresent p illinoisSelectors = true →
        detectMethod p = ExtractionMethod.illinois) ∧
    (∀ p : PageDom, selUnionPresent p kansasSelectors = false →
        selUnionPresent p illinoisSelectors = false →
        selUnionPresent p utahSelectors = true →
        detectMethod p = ExtractionMethod.utah) ∧
    (∀ p : PageDom, selUnionPresent p kansasSelectors = false →
        selUnionPresent p illinoisSelectors = false →
        selUnionPresent p utahSelectors = false →
        detectMethod p = ExtractionMethod.tabular) ∧
    (∀ p : PageDom, p.hasSel ".views-row" = true → p.hasSel ".person-card" = true →
        detectMethod p = ExtractionMethod.kansas) ∧
    (∀ (p : PageDom) (s : String) (m : ExtractionMethod), methodOfString s = some m →
        selectExtraction s p = DispatchOutcome.dialect m) ∧
    (∀ p : PageDom, selectExtraction "auto" p = DispatchOutcome.dialect (detectMethod p)) ∧
    (∀ (p : PageDom) (s : String), methodOfString s = none → s ∉ objectProtoProps →
        selectExtraction s p = DispatchOutcome.dialect (detectMethod p)) ∧
    (∀ (p : PageDom) (s : String), s ∈ objectProtoProps →
        selectExtraction s p = DispatchOutcome.protoCall s) := by
  refine ⟨?_, ?_, ?_, ?_, ?_, ?_, ?_, ?_, ?_⟩
  · intro p h
    simp [detectMethod, h]
  · intro p h1 h2
    simp [detectMethod, h1, h2]
  · intro p h1 h2 h3
    simp [detectMethod, h1, h2, h3]
  · intro p h1 h2 h3
    simp [detectMethod, h1, h2, h3]
  · intro p h1 h2
    have hk : selUnionPresent p kansasSelectors = true := by
      simp [selUnionPresent, kansasSelectors, h1]
    simp [detectMethod, hk]
  · intro p s m h
    by_cases ha : s = "auto"
    · subst ha
      simp [methodOfString] at h
    · simp [selectExtraction, ha, h]
  · intro p
    simp [selectExtraction]
  · intro p s h1 h2
    by_cases ha : s = "auto"
    · simp [selectExtraction, ha]
    · simp [selectExtraction, ha, h1, h2]
  · intro p s hmem
    have hnone : methodOfString s = none := by
      have hall : ∀ x ∈ objectProtoProps, methodOfString x = none := by decide
      exact hall s hmem
    have hne : s ≠ "auto" := by
      have hall : ∀ x ∈ objectProtoProps, x ≠ "auto" := by decide
      exact hall s hmem
    simp [selectExtraction, hne, hnone, hmem]

/-- Witness for C5 (amended) at a concrete page presenting both the
Kansas row container and an Illinois card container, a bogus override
and the inherited-member override `"toString"`. -/
theorem c5_witness :
    detectMethod ⟨fun s => s == ".views-row" || s == ".person-card"⟩ =
      ExtractionMethod.kansas ∧
    selectExtraction "bogus" ⟨fun s => s == ".views-row" || s == ".person-card"⟩ =
      DispatchOutcome.dialect
        (detectMethod ⟨fun s => s == ".views-row" || s == ".person-card"⟩) ∧
    selectExtraction "toString" ⟨fun s => s == ".views-row" || s == ".person-card"⟩ =
      DispatchOutcome.protoCall "toString" := by
  refine ⟨?_, ?_, ?_⟩
  · exact c5_amended.2.2.2.2.1 ⟨fun s => s == ".views-row" || s == ".person-card"⟩
      (by decide) (by decide)
  · exact c5_amended.2.2.2.2.2.2.2.1 ⟨fun s => s == ".views-row" || s == ".person-card"⟩
      "bogus" (by decide) (by decide)
  · exact c5_amended.2.2.2.2.2.2.2.2 ⟨fun s => s == ".views-row" || s == ".person-card"⟩
      "toString" (by decide)

/-! ## C2 -/

/-- C2: every emitted record has a non-empty name longer than 2
characters, and `emailSource = "name-matched"` iff the record's email
confidence exceeds 0.5 (`score050`); the raw name `"Jo"` is dropped and
`"Jon"` is kept. -/
theorem c2_record_invariants :
    (∀ (rawFaculty : List RawCandidate) (method : String) (ctx : PageContext)
        (r : FacultyRecord), r ∈ processFacultyData rawFaculty method ctx →
        r.name ≠ "" ∧ 2 < r.name.length ∧
        (r.emailSource = "name-matched" ↔ score050 < r.emailConfidence)) ∧
    score050 = 0.5 ∧
    processFacultyData [⟨"Jo", "", "", "", ""⟩] "kansas" ⟨"", "", [], "", ""⟩ = [] ∧
    (processFacultyData [⟨"Jon", "", "", "", ""⟩] "kansas" ⟨"", "", [], "", ""⟩).map
      (fun r => r.name) = ["Jon"] := by
  refine ⟨?_, scoreVals.2.2.1, by decide, by decide⟩
  intro rawFaculty method ctx r hmem
  simp only [processFacultyData, List.mem_filter, List.mem_map] at hmem
  obtain ⟨⟨person, hper, heq⟩, hpred⟩ := hmem
  simp only [Bool.and_eq_true, bne_iff_ne, ne_eq, decide_eq_true_eq] at hpred
  refine ⟨hpred.1, hpred.2, ?_⟩
  subst heq
  by_cases hc : score050 <
      calculateEmailConfidence (cleanName person.name) (cleanEmail person.email)
  · simp [hc]
  · simp [hc]

/-- Witness for C2 at a concrete run containing the kept record. -/
theorem c2_witness :
    (⟨"Jon", [], "", "", score010, "generic", "", "", "", "kansas", "", ""⟩ : FacultyRecord) ∈
      processFacultyData [⟨"Jon", "", "", "", ""⟩] "kansas" ⟨"", "", [], "", ""⟩ ∧
    (⟨"Jon", [], "", "", score010, "generic", "", "", "", "kansas", "", ""⟩ :
        FacultyRecord).name ≠ "" ∧
    2 < (⟨"Jon", [], "", "", score010, "generic", "", "", "", "kansas", "", ""⟩ :
        FacultyRecord).name.length ∧
    ((⟨"Jon", [], "", "", score010, "generic", "", "", "", "kansas", "", ""⟩ :
        FacultyRecord).emailSource = "name-matched" ↔
      score050 < (⟨"Jon", [], "", "", score010, "generic", "", "", "", "kansas", "", ""⟩ :
        FacultyRecord).emailConfidence) := by
  have hmem : (⟨"Jon", [], "", "", score010, "generic", "", "", "", "kansas", "", ""⟩ :
      FacultyRecord) ∈
      processFacultyData [⟨"Jon", "", "", "", ""⟩] "kansas" ⟨"", "", [], "", ""⟩ := by decide
  exact ⟨hmem, c2_record_invariants.1 _ "kansas" _ _ hmem⟩

/-! ## C6 -/

/-- C6: for a non-empty (cleaned) name, `findProfileLink` coincides with
the spec's three ordered steps (`findProfileLinkSpec`: first text
containment match in either direction, then first href token match, else
the empty string — no ranking, first match in page order); on the
concrete scenarios it returns `"/people/jsmith"` resp. `""`. -/
theorem c6_resolver_steps :
    (∀ (name : String) (links : List ProfileLinkEntry), name ≠ "" →
        (∀ c ∈ (jsToLowerS name).data, isJsWs c = true → c = ' ') →
        findProfileLink name links = findProfileLinkSpec name links) ∧
    findProfileLink "Jane Smith" [⟨"/people/jsmith", "Jane Smith", ""⟩] = "/people/jsmith" ∧
    findProfileLink "Jane Smith" [] = "" ∧
    findProfileLink "Jane Smith" [⟨"/contact", "Bob Jones", ""⟩] = "" := by
  refine ⟨?_, by decide, by decide, by decide⟩
  intro name links hname hws
  by_cases hl : links = []
  · subst hl
    simp [findProfileLink, findProfileLinkSpec, List.find?]
  · have hguard : ¬ (name = "" ∨ links = []) := by
      push_neg
      exact ⟨hname, hl⟩
    have hsplit : jsSplitS isJsWs (jsToLowerS name) =
        jsSplitS (fun c => c == ' ') (jsToLowerS name) := splitBridge _ hws
    simp only [findProfileLink, findProfileLinkSpec, if_neg hguard, hsplit]

/-- Witness for C6 at a concrete non-empty name. -/
theorem c6_witness :
    findProfileLink "Al Bo" [⟨"/x", "zz", ""⟩] = findProfileLinkSpec "Al Bo" [⟨"/x", "zz", ""⟩] :=
  c6_resolver_steps.1 "Al Bo" [⟨"/x", "zz", ""⟩] (by decide) (by decide)

/-! ## C8 (amended) -/

/-- C8 (amended): the confidence scorer, the profile-link resolver, the
department extractor and the four field cleaners are total with
empty/neutral defaults (the scorer only returns the seven fixed scores,
the resolver returns `""` or an href of the inventory, the department
extractor returns a keyword or the generic label, the cleaners map empty
input to empty output); `deriveUniversityName` returns a value exactly
when the URL parser accepts its url argument, and throws otherwise. -/
theorem c8_amended :
    (∀ url title : String, (getUniversityName url title).isSome = (parseHostname url).isSome) ∧
    (∀ name email : String,
        calculateEmailConfidence name email ∈
          [score010, score030, score050, score060, score075, score085, score095]) ∧
    (∀ (name : String) (links : List ProfileLinkEntry),
        findProfileLink name links = "" ∨
        ∃ l ∈ links, findProfileLink name links = l.href) ∧
    (∀ s : String, getDepartmentName s ∈ musicKeywords ++ ["Music Department"]) ∧
    (cleanName "" = "" ∧ cleanTitle "" = "" ∧ cleanEmail "" = "" ∧ cleanPhone "" = "") := by
  refine ⟨?_, ?_, ?_, ?_, by decide⟩
  · intro url title
    cases h : parseHostname url <;> simp [getUniversityName, h]
  · intro name email
    simp only [calculateEmailConfidence]
    split_ifs <;> decide
  · intro name links
    by_cases hguard : name = "" ∨ links = []
    · left
      simp [findProfileLink, hguard]
    · simp only [findProfileLink, if_neg hguard]
      cases h1 : links.find? (fun link =>
          strContains (jsToLowerS link.text) (jsToLowerS name) ||
          strContains (jsToLowerS name) (jsToLowerS link.text)) with
      | some l =>
        right
        exact ⟨l, List.mem_of_find?_eq_some h1, rfl⟩
      | none =>
        cases h2 : links.find? (fun link =>
            (strContains (jsToLowerS link.href)
                ((jsSplitS (fun c => c == ' ') (jsToLowerS name)).headD "") &&
             strContains (jsToLowerS link.href)
                ((jsSplitS (fun c => c == ' ') (jsToLowerS name)).getLastD "")) ||
            strContains (jsToLowerS link.href)
                ((jsSplitS (fun c => c == ' ') (jsToLowerS name)).headD "" ++ "-" ++
                 (jsSplitS (fun c => c == ' ') (jsToLowerS name)).getLastD "") ||
            strContains (jsToLowerS link.href)
                ((jsSplitS (fun c => c == ' ') (jsToLowerS name)).getLastD "" ++ "-" ++
                 (jsSplitS (fun c => c == ' ') (jsToLowerS name)).headD "")) with
        | some l =>
          right
          exact ⟨l, List.mem_of_find?_eq_some h2, rfl⟩
        | none =>
          left
          rfl
  · intro s
    simp only [getDepartmentName]
    cases h : musicKeywords.find? (fun keyword => strContains s keyword) with
    | some k =>
      have hk : k ∈ musicKeywords := List.mem_of_find?_eq_some h
      exact List.mem_append_left _ hk
    | none => decide

/-! ## C9 (amended) -/

/-- C9 (amended): on every url whose hostname parses,
`deriveUniversityName` equals the spec cascade `univNameSpec`: the fixed
domain-fragment lookup first, then the trimmed `.*?University[^|]*`
title match, else the hostname with a leading `www.` and the first
occurrence of `.edu` removed. -/
theorem c9_amended :
    ∀ (url title host : String), parseHostname url = some host →
      getUniversityName url title = some (univNameSpec host title) := by
  intro url title host hp
  simp only [getUniversityName, hp, Option.map_some]
  simp only [univNameSpec, domainLookup, List.find?]
  by_cases h1 : strContains (jsToLowerS host) "kansas"
  · simp [h1]
  · simp only [Bool.not_eq_true] at h1
    by_cases h2 : strContains (jsToLowerS host) "illinois"
    · simp [h1, h2]
    · simp only [Bool.not_eq_true] at h2
      by_cases h3 : strContains (jsToLowerS host) "utah"
      · simp [h1, h2, h3]
      · simp only [Bool.not_eq_true] at h3
        by_cases h4 : strContains (jsToLowerS host) "unf"
        · simp [h1, h2, h3, h4]
        · simp only [Bool.not_eq_true] at h4
          by_cases h5 : strContains title "University"
          · cases h6 : univMatch title.data <;> simp [h1, h2, h3, h4, h5, h6]
          · simp only [Bool.not_eq_true] at h5
            simp [h1, h2, h3, h4, h5]

/-- Witness for C9 (amended) at a concrete parseable url. -/
theorem c9_witness :
    parseHostname "https://www.kansas.edu/x" = some "www.kansas.edu" ∧
    getUniversityName "https://www.kansas.edu/x" "" =
      some (univNameSpec "www.kansas.edu" "") ∧
    univNameSpec "www.kansas.edu" "" = "University of Kansas" :=
  ⟨by decide, c9_amended "https://www.kansas.edu/x" "" "www.kansas.edu" (by decide), by decide⟩


/-! ## C10: the honorific pass deletes matches at any scan position -/

theorem ciStarts_append_self (p t : List Char) : ciStarts p (p ++ t) = true := by
  induction p with
  | nil => rfl
  | cons c cs ih => simp [ciStarts, ih]

theorem ciStarts_false_head (p c : Char) (ps cs : List Char)
    (h : (p.toLower == c.toLower) = false) : ciStarts (p :: ps) (c :: cs) = false := by
  simp [ciStarts, h]

/-- At an occurrence of any honorific alternative, the regex alternation
matches exactly that alternative (earlier alternatives fail within their
literal characters, never inspecting the remainder). -/
theorem findHon_self (pat : String) (hmem : pat ∈ honorificsStrings) (t : List Char) :
    findHon (pat.data ++ t) = some pat.data := by
  have hDP : (Char.toLower 'D' == Char.toLower 'P') = false := by decide
  have hDM : (Char.toLower 'D' == Char.toLower 'M') = false := by decide
  have hPM : (Char.toLower 'P' == Char.toLower 'M') = false := by decide
  have hDotE : (Char.toLower '.' == Char.toLower 'e') = false := by decide
  have hDotS : (Char.toLower '.' == Char.toLower 's') = false := by decide
  have hRS : (Char.toLower 'r' == Char.toLower 's') = false := by decide
  have hSR : (Char.toLower 's' == Char.toLower 'r') = false := by decide
  fin_cases hmem <;>
    simp [findHon, honorificsStrings, List.find?, ciStarts,
      hDP, hDM, hPM, hDotE, hDotS, hRS, hSR]

/-- The fuel argument of `stripHonAux` is irrelevant once it reaches the
list length. -/
theorem stripHonAux_congr :
    ∀ (f1 : Nat) (l : List Char) (f2 : Nat),
      l.length ≤ f1 → l.length ≤ f2 → stripHonAux f1 l = stripHonAux f2 l := by
  intro f1
  induction f1 with
  | zero =>
    intro l f2 h1 _
    have hl : l = [] := List.length_eq_zero.mp (Nat.le_zero.mp h1)
    subst hl
    cases f2 <;> rfl
  | succ n ih =>
    intro l f2 h1 h2
    cases l with
    | nil => cases f2 <;> rfl
    | cons c t =>
      cases f2 with
      | zero => exact absurd h2 (by simp [List.length_cons])
      | succ m =>
        simp only [stripHonAux]
        cases hf : findHon (c :: t) with
        | some pat =>
          have hpat : 1 ≤ pat.length := by
            have hmem := List.mem_of_find?_eq_some hf
            have hall : ∀ q ∈ honorificsStrings.map String.data, 1 ≤ q.length := by decide
            exact hall pat hmem
          have hd1 : ((c :: t).drop pat.length).length ≤ n := by
            rw [List.length_drop, List.length_cons]
            rw [List.length_cons] at h1
            omega
          have hd2 : ((c :: t).drop pat.length).length ≤ m := by
            rw [List.length_drop, List.length_cons]
            rw [List.length_cons] at h2
            omega
          exact ih _ _ hd1 hd2
        | none =>
          have ha : t.length ≤ n := by
            rw [List.length_cons] at h1
            omega
          have hb : t.length ≤ m := by
            rw [List.length_cons] at h2
            omega
          exact congrArg (c :: ·) (ih t m ha hb)

/-- The honorific pass deletes an honorific standing at the current scan
position and continues after it, whatever precedes brought the scan
there. -/
theorem stripHonRun_del (pat : String) (hmem : pat ∈ honorificsStrings) (t : List Char) :
    stripHonRun (pat.data ++ t) = stripHonRun t := by
  obtain ⟨c, cs, hpd⟩ : ∃ c cs, pat.data = c :: cs := by
    fin_cases hmem <;> exact ⟨_, _, rfl⟩
  have hfind : findHon (c :: (cs ++ t)) = some pat.data := by
    rw [← List.cons_append, ← hpd]
    exact findHon_self pat hmem t
  have hdrop : (c :: (cs ++ t)).drop pat.data.length = t := by
    rw [hpd, List.length_cons, List.drop_succ_cons]
    exact List.drop_left cs t
  unfold stripHonRun
  rw [hpd, List.cons_append]
  have hlen : (c :: (cs ++ t)).length = (cs ++ t).length + 1 := List.length_cons c (cs ++ t)
  rw [hlen]
  simp only [stripHonAux, hfind]
  rw [hdrop]
  exact stripHonAux_congr _ t _ (by simp [List.length_append]) (Nat.le_refl _)

/-- C10: the honorific tokens are deleted wherever the global-regex scan
meets them — not only as a leading prefix: whenever the scan position
carries one of the six patterns (case-insensitively via `findHon`), it is
consumed; concretely, a mid-string `"Dr."`, the `"Professor"` embedded in
`"Professorship"`, and a mid-string case-twisted `"mRs."` are all
removed by `cleanName`. -/
theorem c10_honorifics_anywhere :
    (∀ pat ∈ honorificsStrings, ∀ t : List Char,
        stripHonRun (pat.data ++ t) = stripHonRun t) ∧
    cleanName "Jane Dr. Smith" = "Jane Smith" ∧
    cleanName "Professorship" = "ship" ∧
    cleanName "the Professorship of Music" = "the ship of Music" ∧
    cleanName "Jane mRs.Smith" = "Jane Smith" :=
  ⟨fun pat hmem t => stripHonRun_del pat hmem t, by decide, by decide, by decide, by decide⟩

/-- Witness for C10 at a concrete pattern and remainder. -/
theorem c10_witness :
    stripHonRun ("Dr.".data ++ " Jane".data) = stripHonRun " Jane".data :=
  c10_honorifics_anywhere.1 "Dr." (by decide) " Jane".data


/-! ## C3 -/

theorem jsIndex0_eq_strTake1 (s : String) (h : s.data ≠ []) : jsIndex0 s = strTake1 s := by
  cases hd : s.data with
  | nil => exact absurd hd h
  | cons c r => simp [jsIndex0, strTake1, hd]

theorem nameTokens_gt_one (name : String) (tok : String) (hmem : tok ∈ nameTokens name) :
    1 < tok.length := by
  simp only [nameTokens] at hmem
  have := (List.mem_filter.mp hmem).2
  exact of_decide_eq_true this

theorem data_ne_nil_of_one_lt (s : String) (h : 1 < s.length) : s.data ≠ [] := by
  intro hd
  have hlen : s.length = s.data.length := rfl
  rw [hd] at hlen
  simp at hlen
  omega

/-- C3: on a cleaned name (whitespace is plain spaces) whose whitespace
split leaves at least two tokens of length `> 1`, and an email whose
case-folded local part is `firstToken ++ "." ++ lastToken`, the scorer
returns exactly 0.95 (`score095`); and past the guards the scorer equals
the spec's ordered first-match table `firstMatchScore ∘
confidencePatterns` — the first matching pattern's score is returned, so
specific patterns beat the looser substring checks. -/
theorem c3_confidence_exact_and_order :
    (∀ (name loc dom : String),
        (∀ c ∈ (jsToLowerS name).data, isJsWs c = true → c = ' ') →
        2 ≤ (wsNameTokens name).length →
        '@' ∉ loc.data →
        jsToLowerS loc = (wsNameTokens name).headD "" ++ "." ++ (wsNameTokens name).getLastD "" →
        calculateEmailConfidence name (loc ++ "@" ++ dom) = score095) ∧
    (∀ (name email : String),
        ¬ (name = "" ∨ email = "" ∨ email.length < 5) →
        ¬ ((nameTokens name).length < 2) →
        calculateEmailConfidence name email =
          firstMatchScore (confidencePatterns ((nameTokens name).headD "")
            ((nameTokens name).getLastD "")
            (jsToLowerS ((jsSplitS (fun c => c == '@') email).headD "")))) ∧
    score095 = 0.95 := by
  refine ⟨?_, ?_, scoreVals.2.2.2.2.2.2⟩
  · intro name loc dom hws hlen hat hform
    have hbridge : wsNameTokens name = nameTokens name := by
      unfold wsNameTokens nameTokens
      rw [splitBridge _ hws]
    rw [hbridge] at hlen hform
    have htne : nameTokens name ≠ [] := by
      intro h
      rw [h] at hlen
      simp at hlen
    have hFmem := headD_mem_of_ne_nil _ htne
    have hLmem := getLastD_mem_of_ne_nil _ htne
    have hF1 : 1 < ((nameTokens name).headD "").length := nameTokens_gt_one name _ hFmem
    have hL1 : 1 < ((nameTokens name).getLastD "").length := nameTokens_gt_one name _ hLmem
    have hlocLen : (jsToLowerS loc).length = loc.length := by
      show (loc.data.map Char.toLower).length = loc.data.length
      exact List.length_map _ _
    have hlocform := congrArg String.length hform
    rw [hlocLen, strLength_append, strLength_append] at hlocform
    have hdot : ("." : String).length = 1 := rfl
    rw [hdot] at hlocform
    have helen : (loc ++ "@" ++ dom).length = loc.length + 1 + dom.length := by
      rw [strLength_append, strLength_append,
        show ("@" : String).length = 1 from rfl]
    have hname : name ≠ "" := by
      intro h
      subst h
      exact absurd hlen (by decide)
    have hemne : loc ++ "@" ++ dom ≠ "" := by
      intro h
      have h0 : (loc ++ "@" ++ dom).length = 0 := by rw [h]; rfl
      rw [helen] at h0
      omega
    have hguard : ¬ (name = "" ∨ loc ++ "@" ++ dom = "" ∨ (loc ++ "@" ++ dom).length < 5) := by
      push_neg
      refine ⟨hname, hemne, ?_⟩
      rw [helen]
      omega
    simp only [calculateEmailConfidence, if_neg hguard]
    have hlt : ¬ ((nameTokens name).length < 2) := by omega
    rw [if_neg hlt]
    have hnoat : ∀ c ∈ loc.data, (c == '@') = false := by
      intro c hc
      have hne : c ≠ '@' := fun h => hat (h ▸ hc)
      simp [hne]
    have hdata : (loc ++ "@" ++ dom).data = loc.data ++ '@' :: dom.data := by
      rw [strData_append, strData_append]
      simp
    have hheadsplit : (jsSplitS (fun c => c == '@') (loc ++ "@" ++ dom)).headD "" = loc := by
      unfold jsSplitS
      rw [hdata]
      rw [headD_map_mk _ (jsSplitOn_ne_nil _ _)]
      rw [jsSplitOn_head_before_sep (fun c => c == '@') '@' (by decide) loc.data dom.data hnoat]
    rw [hheadsplit, hform, if_pos rfl]
  · intro name email h1 h2
    simp only [calculateEmailConfidence, if_neg h1, if_neg h2]
    have htne : nameTokens name ≠ [] := by
      intro h
      rw [h] at h2
      simp at h2
    have hFmem := headD_mem_of_ne_nil _ htne
    have hLmem := getLastD_mem_of_ne_nil _ htne
    have hFd : ((nameTokens name).headD "").data ≠ [] :=
      data_ne_nil_of_one_lt _ (nameTokens_gt_one name _ hFmem)
    have hLd : ((nameTokens name).getLastD "").data ≠ [] :=
      data_ne_nil_of_one_lt _ (nameTokens_gt_one name _ hLmem)
    rw [jsIndex0_eq_strTake1 _ hLd, jsIndex0_eq_strTake1 _ hFd]
    set EL := jsToLowerS ((jsSplitS (fun c => c == '@') email).headD "") with hEL
    set F := (nameTokens name).headD "" with hF
    set L := (nameTokens name).getLastD "" with hL
    by_cases b1 : EL = F ++ "." ++ L
    · rw [if_pos b1]
      have p1 : (EL == F ++ "." ++ L) = true := beq_iff_eq.mpr b1
      simp [firstMatchScore, confidencePatterns, List.find?, p1]
    · rw [if_neg b1]
      have f1 : (EL == F ++ "." ++ L) = false := beq_eq_false_iff_ne.mpr b1
      by_cases b2 : EL = F ++ "." ++ strTake1 L
      · rw [if_pos b2]
        have p2 : (EL == F ++ "." ++ strTake1 L) = true := beq_iff_eq.mpr b2
        simp [firstMatchScore, confidencePatterns, List.find?, f1, p2]
      · rw [if_neg b2]
        have f2 : (EL == F ++ "." ++ strTake1 L) = false := beq_eq_false_iff_ne.mpr b2
        by_cases b3 : EL = strTake1 F ++ "." ++ L
        · rw [if_pos b3]
          have p3 : (EL == strTake1 F ++ "." ++ L) = true := beq_iff_eq.mpr b3
          simp [firstMatchScore, confidencePatterns, List.find?, f1, f2, p3]
        · rw [if_neg b3]
          have f3 : (EL == strTake1 F ++ "." ++ L) = false := beq_eq_false_iff_ne.mpr b3
          by_cases b4 : (strContains EL F && strContains EL L) = true
          · rw [if_pos b4]
            simp [firstMatchScore, confidencePatterns, List.find?, f1, f2, f3, b4]
          · rw [if_neg b4]
            have f4 : (strContains EL F && strContains EL L) = false := by simpa using b4
            by_cases b5 : strContains EL F = true
            · rw [if_pos b5]
              have f4b : strContains EL L = false := by
                rw [b5] at f4
                simpa using f4
              simp [firstMatchScore, confidencePatterns, List.find?, f1, f2, f3, b5, f4b]
            · rw [if_neg b5]
              have f5 : strContains EL F = false := by simpa using b5
              by_cases b6 : strContains EL L = true
              · rw [if_pos b6]
                simp [firstMatchScore, confidencePatterns, List.find?, f1, f2, f3, f4, f5, b6]
              · rw [if_neg b6]
                have f6 : strContains EL L = false := by simpa using b6
                simp [firstMatchScore, confidencePatterns, List.find?, f1, f2, f3, f4, f5, f6]

/-- Witness for C3 at a concrete name/email pair for both clauses. -/
theorem c3_witness :
    calculateEmailConfidence "Ann Lee" ("ann.lee" ++ "@" ++ "x.edu") = score095 ∧
    calculateEmailConfidence "Ann Lee" "ann.lee@x.edu" =
      firstMatchScore (confidencePatterns ((nameTokens "Ann Lee").headD "")
        ((nameTokens "Ann Lee").getLastD "")
        (jsToLowerS ((jsSplitS (fun c => c == '@') "ann.lee@x.edu").headD ""))) :=
  ⟨c3_confidence_exact_and_order.1 "Ann Lee" "ann.lee" "x.edu"
      (by decide) (by decide) (by decide) (by decide),
   c3_confidence_exact_and_order.2.1 "Ann Lee" "ann.lee@x.edu" (by decide) (by decide)⟩

end FacultyScraper
